import Mathlib

/-!
Verification of the decision-tree editor's graph validation and
normalization engine (`utils/graph_ops.py`) and the edge/node mutation
handlers of the editor application (`streamlit_app.py`).

Modelling conventions:
* Python dicts for nodes/edges become records; a possibly-missing
  `data.prob` entry becomes `Option ℚ`.
* A graph dict that may lack the `nodes` or `edges` top-level keys is a
  `RawGraph` with `Option` fields; an input where both keys are present
  is `⟨some ns, some es⟩` (an empty dict lacks both keys).
* Python floats are modelled as exact rationals; `round(x, 3)` and the
  `.2f` format use round-half-to-even (`rhe`), as Python's rounding does.
* `node_map[...]` (a dict built left to right, so later bindings win) is
  modelled by searching the reversed node list; the `next(...)` lookups in
  the application take the first match, modelled by `List.find?`.
* The Python dict of in-degrees in `has_cycle` is modelled by a function
  `String → ℤ`; its key iteration for the initial queue coincides with
  iterating the node-id list whenever node ids are unique (the
  well-formedness invariant assumed by the claims below).
-/

structure Node where
  id : String
  label : String
  kind : String
deriving DecidableEq

structure Edge where
  id : String
  source : String
  target : String
  label : Option String
  prob : Option ℚ
deriving DecidableEq

/-- A graph dict that may be missing its top-level keys. -/
structure RawGraph where
  nodes : Option (List Node)
  edges : Option (List Edge)
deriving DecidableEq

/-- The in-session graph (both keys always present). -/
structure Graph where
  nodes : List Node
  edges : List Edge
deriving DecidableEq

/-- Round half to even to an integer, as Python's `round` does
(floats being modelled as exact rationals). -/
def rhe (q : ℚ) : ℤ :=
  let f := ⌊q⌋
  let r := q - f
  if r < 1/2 then f
  else if 1/2 < r then f + 1
  else if f % 2 = 0 then f else f + 1

/-- Python's `round(x, 3)`. -/
def round3 (q : ℚ) : ℚ := (rhe (q * 1000) : ℚ) / 1000

/-- Python's `format(x, ".2f")`. -/
def fmt2 (q : ℚ) : String :=
  let m := rhe (q * 100)
  let a := m.natAbs
  let sgn := if m < 0 then "-" else ""
  let frac := a % 100
  sgn ++ toString (a / 100) ++ "." ++ (if frac < 10 then "0" else "") ++ toString frac

/-- A single-quote character, used inside the warning messages. -/
def sqc : String := String.singleton (Char.ofNat 39)

def selfLoopMsg (label : String) : String :=
  "Self-loop detected on node " ++ sqc ++ label ++ sqc ++ "."

def probMsg (label : String) (total : ℚ) : String :=
  "Decision node " ++ sqc ++ label ++ sqc ++ " probabilities sum to "
    ++ fmt2 total ++ ", expected 1.0."

def cycleMsg : String :=
  "The graph contains cycles (loops), which may cause logical errors."

def malformedMsg : String := "Graph data is missing or malformed."

/-- `node_map[i]`: the dict comprehension keeps the last binding for a
repeated id, hence the reversed search. -/
def lookupNode (ns : List Node) (i : String) : Option Node :=
  ns.reverse.find? fun n => decide (n.id = i)

def labelOf (ns : List Node) (i : String) : String :=
  ((lookupNode ns i).map Node.label).getD ""

/-- `outgoing_probs[src]`: the probabilities of the edges leaving `src`,
an absent probability contributing 0. -/
def probSum (es : List Edge) (src : String) : ℚ :=
  ((es.filter fun e => decide (e.source = src)).map fun e => e.prob.getD 0).sum

/-- The warnings appended while looping over the edges. -/
def selfLoopWarnings (ns : List Node) (es : List Edge) : List String :=
  (es.filter fun e => decide (e.source = e.target)).map fun e =>
    selfLoopMsg (labelOf ns e.source)

/-- The probability-sum warning computed for one node in the node loop of
`validate_graph`. -/
def decisionWarning (es : List Edge) (n : Node) : Option String :=
  if n.kind = "decision" then
    let out := es.filter fun e => decide (e.source = n.id)
    if out ≠ [] then
      let total := probSum es n.id
      if ¬(0.99 ≤ total ∧ total ≤ 1.01) ∧ (out.any fun e => e.prob.isSome) then
        some (probMsg n.label total)
      else none
    else none
  else none

/-- The inner `for` loop of the `while` in `has_cycle`: visit the out-edges
of `current`, decrementing in-degrees and collecting the targets whose
in-degree just reached 0 (in edge order). -/
def processEdges (current : String) : List Edge → (String → ℤ) → (String → ℤ) × List String
  | [], d => (d, [])
  | e :: rest, d =>
    if e.source = current then
      let d1 : String → ℤ := fun v => if v = e.target then d e.target - 1 else d v
      let r := processEdges current rest d1
      if d e.target - 1 = 0 then (r.1, e.target :: r.2) else r
    else processEdges current rest d

/-- The `while queue` loop of `has_cycle`, with explicit fuel; the fuel
supplied below always suffices for the queue to empty. -/
def kahnLoop (es : List Edge) : ℕ → List String → (String → ℤ) → ℕ → ℕ
  | 0, _, _, visited => visited
  | _ + 1, [], _, visited => visited
  | fuel + 1, current :: rest, d, visited =>
    let pr := processEdges current es d
    kahnLoop es fuel (rest ++ pr.2) pr.1 (visited + 1)

/-- `has_cycle` on a graph whose two keys are present. -/
def hasCycleGraph (ns : List Node) (es : List Edge) : Bool :=
  let ids := ns.map Node.id
  let d : String → ℤ := fun v => ((es.filter fun e => decide (e.target = v)).length : ℤ)
  let queue := ids.filter fun i => decide (d i = 0)
  decide (kahnLoop es (ids.length + es.length) queue d 0 ≠ ids.length)

def has_cycle (g : RawGraph) : Bool :=
  match g.nodes, g.edges with
  | some ns, some es => hasCycleGraph ns es
  | _, _ => false

def validate_graph (g : RawGraph) : List String :=
  match g.nodes, g.edges with
  | some ns, some es =>
      selfLoopWarnings ns es ++ ns.filterMap (decisionWarning es)
        ++ (if hasCycleGraph ns es then [cycleMsg] else [])
  | _, _ => [malformedMsg]

/-- One iteration of the node loop of `auto_compute_probabilities`. -/
def autoStep (es : List Edge) (node : Node) : List Edge :=
  if node.kind = "decision" then
    let outgoing := es.filter fun e => decide (e.source = node.id)
    if outgoing ≠ [] ∧ ∀ e ∈ outgoing, e.prob = none ∨ e.prob = some 0 then
      let equal_prob := round3 (1 / (outgoing.length : ℚ))
      es.map fun e =>
        if e.source = node.id then { e with prob := some equal_prob } else e
    else es
  else es

def auto_compute_probabilities (g : RawGraph) : RawGraph :=
  match g.nodes, g.edges with
  | some ns, some es => ⟨some ns, some (ns.foldl autoStep es)⟩
  | _, _ => g

/-- `kind_rank` from the application. -/
def kind_rank (k : String) : ℕ :=
  if k = "event" then 0
  else if k = "decision" then 1
  else if k = "result" then 2
  else 99

/-- `next(n["kind"] for n in nodes if n["id"] == i)` (first match). -/
def kindOf (ns : List Node) (i : String) : String :=
  ((ns.find? fun n => decide (n.id = i)).map Node.kind).getD ""

/-- The auto-orient and reverse transformations of the Add Edge handler,
applied in this order to the chosen pair. -/
def orientPair (ns : List Node) (source target : String)
    (auto_orient reverse_dir : Bool) : String × String :=
  let src_kind := kindOf ns source
  let tgt_kind := kindOf ns target
  let p :=
    if auto_orient ∧ kind_rank src_kind > kind_rank tgt_kind
    then (target, source) else (source, target)
  if reverse_dir then (p.2, p.1) else p

def selfLoopWarn : String := "Cannot connect a node to itself."

def dupWarn : String := "That edge already exists."

/-- The Add Edge form submit handler: transform the pair, reject
self-loops and duplicates without mutating, otherwise append the new
edge.  The generated edge id is passed in as `newId`. -/
def add_edge_submit (g : Graph) (source target : String)
    (auto_orient reverse_dir : Bool) (edge_label : String)
    (edge_prob_enabled : Bool) (edge_prob : ℚ) (newId : String) :
    Graph × Option String :=
  let st := orientPair g.nodes source target auto_orient reverse_dir
  if st.1 = st.2 then (g, some selfLoopWarn)
  else if g.edges.any fun e => decide (e.source = st.1 ∧ e.target = st.2) then
    (g, some dupWarn)
  else
    let newEdge : Edge :=
      ⟨newId, st.1, st.2,
        if edge_label = "" then none else some edge_label,
        if edge_prob_enabled then some edge_prob else none⟩
    ({ g with edges := g.edges ++ [newEdge] }, none)

/-- The Delete Selected Node handler: drop the node and every edge
referencing it. -/
def delete_selected_node (g : Graph) (node_id : String) : Graph :=
  { nodes := g.nodes.filter (fun n => decide (n.id ≠ node_id)),
    edges := g.edges.filter (fun e => decide (e.source ≠ node_id ∧ e.target ≠ node_id)) }

/-- Spec-side notion: `a` and `b` are joined by an edge of `es`. -/
def HasEdge (es : List Edge) (a b : String) : Prop :=
  ∃ e ∈ es, e.source = a ∧ e.target = b

/-- Spec-side notion: the edge set contains a directed cycle. -/
def ExistsCycle (es : List Edge) : Prop :=
  ∃ v, Relation.TransGen (HasEdge es) v v

/-- The nodes of a graph built as a single forward chain over `ids`. -/
def chainNodes (ids : List String) : List Node :=
  ids.map fun i => ⟨i, i, "event"⟩

/-- The edges of a graph built as a single forward chain over `ids`. -/
def chainEdges (ids : List String) : List Edge :=
  (ids.zip ids.tail).map fun p => ⟨"e_" ++ p.1, p.1, p.2, none, none⟩

/-- Proof-side view of the in-degree dict: the number of edges into `v`
whose source has not yet been processed (processed list `P`). -/
def remDeg (es : List Edge) (P : List String) (v : String) : ℕ :=
  es.countP fun e => decide (e.target = v ∧ e.source ∉ P)

/-- Index of the first occurrence of `a` in `l` (`l.length` if absent). -/
def posIn : List String → String → ℕ
  | [], _ => 0
  | x :: xs, a => if x = a then 0 else posIn xs a + 1

/-- The loop invariant for the `while` loop of `has_cycle`: `P` is the
list of processed (visited) ids in order, `Q` the queue, `d` the
in-degree table. -/
def KahnInv (ids : List String) (es : List Edge) (P Q : List String)
    (d : String → ℤ) : Prop :=
  (P ++ Q).Nodup
  ∧ (∀ x ∈ P ++ Q, x ∈ ids)
  ∧ (∀ v, d v = (remDeg es P v : ℤ))
  ∧ (∀ v ∈ ids, (v ∈ P ++ Q ↔ remDeg es P v = 0))
  ∧ (∀ e ∈ es, e.target ∈ P → posIn P e.source < posIn P e.target)

/-- What holds of the processed list when the queue has drained. -/
def KahnFinal (ids : List String) (es : List Edge) (F : List String) : Prop :=
  F.Nodup ∧ (∀ x ∈ F, x ∈ ids)
  ∧ (∀ v ∈ ids, v ∈ F ↔ remDeg es F v = 0)
  ∧ (∀ e ∈ es, e.target ∈ F → posIn F e.source < posIn F e.target)

/-! Concrete inputs used by the witness theorems. -/

def wG1n : List Node := [⟨"d1", "D", "decision"⟩, ⟨"r1", "R", "result"⟩]

def wG1e : List Edge := [⟨"e1", "d1", "r1", none, some (1/2)⟩]

def wG2n : List Node := [⟨"d", "D", "decision"⟩, ⟨"a", "A", "result"⟩, ⟨"b", "B", "result"⟩]

def wG2e : List Edge := [⟨"e1", "d", "a", none, none⟩, ⟨"e2", "d", "b", none, none⟩]

def wG4e : List Edge := [⟨"e1", "d", "a", none, some 1⟩, ⟨"e2", "d", "b", none, none⟩]

def wG6 : Graph := ⟨[⟨"a", "A", "event"⟩, ⟨"b", "B", "decision"⟩], []⟩

def wG8 : Graph := ⟨[⟨"a", "A", "event"⟩, ⟨"b", "B", "event"⟩], [⟨"e1", "a", "b", none, none⟩]⟩

def wG3n : List Node := [⟨"a", "a", "event"⟩, ⟨"b", "b", "event"⟩]

def wG3e : List Edge := [⟨"e1", "a", "b", none, none⟩, ⟨"e2", "b", "a", none, none⟩]

/-! ## C5: malformed input handling in `validate_graph` -/

/-- C5 counterexample: on an input with no keys, `validate_graph` does not
return the string claimed by the spec sentence (the code's message is
"Graph data is missing or malformed.", capitalised and punctuated
differently). -/
theorem validate_malformed_msg_counterexample :
    validate_graph ⟨none, none⟩ ≠ ["graph data missing or malformed"] := by
  decide

/-- C5 (amended): for every input lacking the nodes key or the edges key,
`validate_graph` returns exactly the one warning
"Graph data is missing or malformed." and performs no further checks. -/
theorem validate_malformed (g : RawGraph) (h : g.nodes = none ∨ g.edges = none) :
    validate_graph g = ["Graph data is missing or malformed."] := by
  obtain ⟨ns, es⟩ := g
  cases ns <;> cases es <;>
    first
      | rfl
      | (rcases h with h | h <;> simp at h)

theorem validate_malformed_witness :
    validate_graph ⟨none, some []⟩ = ["Graph data is missing or malformed."] :=
  validate_malformed ⟨none, some []⟩ (Or.inl rfl)

/-! ## C10: malformed input handling in `has_cycle` -/

/-- C10: for every input lacking the nodes key or the edges key (including
an empty input), `has_cycle` returns false rather than failing. -/
theorem has_cycle_malformed (g : RawGraph) (h : g.nodes = none ∨ g.edges = none) :
    has_cycle g = false := by
  obtain ⟨ns, es⟩ := g
  cases ns <;> cases es <;>
    first
      | rfl
      | (rcases h with h | h <;> simp at h)

theorem has_cycle_malformed_witness : has_cycle ⟨none, none⟩ = false :=
  has_cycle_malformed ⟨none, none⟩ (Or.inl rfl)

/-! ## C6: self-loop rejection in the Add Edge handler -/

/-- C6: whenever the post-transformation source equals the target, the Add
Edge handler surfaces the self-loop rejection and performs no mutation:
the returned graph (nodes and edge sequence) is exactly the input graph. -/
theorem add_edge_self_loop (g : Graph) (source target : String)
    (ao rd : Bool) (lbl : String) (en : Bool) (pr : ℚ) (nid : String)
    (hs : source ∈ g.nodes.map Node.id) (ht : target ∈ g.nodes.map Node.id)
    (hself : (orientPair g.nodes source target ao rd).1 =
      (orientPair g.nodes source target ao rd).2) :
    add_edge_submit g source target ao rd lbl en pr nid =
      (g, some "Cannot connect a node to itself.") := by
  unfold add_edge_submit
  rw [if_pos hself]
  rfl

theorem add_edge_self_loop_witness :
    add_edge_submit wG6 "a" "a" true false "" false 0 "e9" =
      (wG6, some "Cannot connect a node to itself.") :=
  add_edge_self_loop wG6 "a" "a" true false "" false 0 "e9"
    (by decide) (by decide) (by decide)

/-! ## C8: cascade delete of a node -/

/-- C8: deleting a node present in the graph removes exactly that node and
every edge whose source or target is that node, leaving every other node
and edge unchanged and in their original order (the results are sublists
of the originals). -/
theorem delete_node_cascade (g : Graph) (nid : String)
    (h : nid ∈ g.nodes.map Node.id) :
    (∀ n, n ∈ (delete_selected_node g nid).nodes ↔ n ∈ g.nodes ∧ n.id ≠ nid)
    ∧ (delete_selected_node g nid).nodes.Sublist g.nodes
    ∧ (∀ e, e ∈ (delete_selected_node g nid).edges ↔
        e ∈ g.edges ∧ e.source ≠ nid ∧ e.target ≠ nid)
    ∧ (delete_selected_node g nid).edges.Sublist g.edges := by
  refine ⟨?_, ?_, ?_, ?_⟩
  · intro n
    simp [delete_selected_node, List.mem_filter]
  · exact List.filter_sublist g.nodes
  · intro e
    simp [delete_selected_node, List.mem_filter]
  · exact List.filter_sublist g.edges

theorem delete_node_cascade_witness :
    (∀ n, n ∈ (delete_selected_node wG8 "a").nodes ↔ n ∈ wG8.nodes ∧ n.id ≠ "a")
    ∧ (delete_selected_node wG8 "a").nodes.Sublist wG8.nodes
    ∧ (∀ e, e ∈ (delete_selected_node wG8 "a").edges ↔
        e ∈ wG8.edges ∧ e.source ≠ "a" ∧ e.target ≠ "a")
    ∧ (delete_selected_node wG8 "a").edges.Sublist wG8.edges :=
  delete_node_cascade wG8 "a" (by decide)

/-! ## C7: auto-orient and reverse transformations -/

/-- C7: with node kinds ranked event=0 < decision=1 < result=2, enabling
auto-orient yields a pair whose source rank does not exceed its target
rank; enabling reverse swaps whatever the auto-orient stage produced; and
on a successful submit the inserted edge carries exactly the transformed
pair. -/
theorem orient_reverse_spec :
    (∀ ns s t, kind_rank (kindOf ns (orientPair ns s t true false).1) ≤
        kind_rank (kindOf ns (orientPair ns s t true false).2))
    ∧ (∀ ns s t ao, orientPair ns s t ao true =
        ((orientPair ns s t ao false).2, (orientPair ns s t ao false).1))
    ∧ (∀ g s t ao rd lbl en pr nid,
        (add_edge_submit g s t ao rd lbl en pr nid).2 = none →
        (add_edge_submit g s t ao rd lbl en pr nid).1.edges.map
            (fun e => (e.source, e.target)) =
          g.edges.map (fun e => (e.source, e.target)) ++
            [orientPair g.nodes s t ao rd]) := by
  refine ⟨?_, ?_, ?_⟩
  · intro ns s t
    by_cases h : kind_rank (kindOf ns s) > kind_rank (kindOf ns t)
    · simpa [orientPair, h] using le_of_lt h
    · simpa [orientPair, h] using le_of_not_lt h
  · intro ns s t ao
    rfl
  · intro g s t ao rd lbl en pr nid h
    simp only [add_edge_submit] at h ⊢
    split at h
    · simp at h
    · split at h
      · simp at h
      · rename_i h1 h2
        rw [if_neg h1, if_neg h2]
        simp

theorem orient_reverse_spec_witness :
    (kind_rank (kindOf wG6.nodes (orientPair wG6.nodes "b" "a" true false).1) ≤
        kind_rank (kindOf wG6.nodes (orientPair wG6.nodes "b" "a" true false).2))
    ∧ (orientPair wG6.nodes "b" "a" true true =
        ((orientPair wG6.nodes "b" "a" true false).2,
          (orientPair wG6.nodes "b" "a" true false).1))
    ∧ ((add_edge_submit wG6 "a" "b" true false "" false 0 "e7").1.edges.map
          (fun e => (e.source, e.target)) =
        wG6.edges.map (fun e => (e.source, e.target)) ++
          [orientPair wG6.nodes "a" "b" true false]) :=
  ⟨orient_reverse_spec.1 wG6.nodes "b" "a",
    orient_reverse_spec.2.1 wG6.nodes "b" "a" true,
    orient_reverse_spec.2.2 wG6 "a" "b" true false "" false 0 "e7" (by decide)⟩

/-! ## C1: the probability-sum warning of `validate_graph` -/

/-- C1: for a well-formed graph, the node loop of `validate_graph` emits a
probability-sum warning for a node exactly when the node is a decision
node with at least one outgoing edge, at least one outgoing edge carries
an explicit probability, and the outgoing probabilities (absent ones
contributing 0) sum outside [0.99, 1.01]; the emitted warning names the
node's label and the sum formatted to two decimals, and appears in the
output of `validate_graph`. -/
theorem validate_prob_warning (ns : List Node) (es : List Edge)
    (hval : ∀ e ∈ es, e.source ∈ ns.map Node.id ∧ e.target ∈ ns.map Node.id)
    (n : Node) (hn : n ∈ ns) :
    ((decisionWarning es n).isSome = true ↔
      (n.kind = "decision"
        ∧ es.filter (fun e => decide (e.source = n.id)) ≠ []
        ∧ (∃ e ∈ es, e.source = n.id ∧ e.prob.isSome = true)
        ∧ ¬(0.99 ≤ probSum es n.id ∧ probSum es n.id ≤ 1.01)))
    ∧ (∀ w, decisionWarning es n = some w →
        w = probMsg n.label (probSum es n.id)
          ∧ w ∈ validate_graph ⟨some ns, some es⟩) := by
  constructor
  · simp only [decisionWarning]
    split_ifs with hk hne hc
    · simp only [Option.isSome_some, true_iff]
      refine ⟨hk, hne, ?_, hc.1⟩
      obtain ⟨e, he, hp⟩ := List.any_eq_true.mp hc.2
      obtain ⟨he1, he2⟩ := List.mem_filter.mp he
      exact ⟨e, he1, by simpa using he2, hp⟩
    · refine iff_of_false (by simp) ?_
      rintro ⟨-, -, ⟨e, he1, he2, he3⟩, hout⟩
      exact hc ⟨hout, List.any_eq_true.mpr
        ⟨e, List.mem_filter.mpr ⟨he1, by simpa using he2⟩, he3⟩⟩
    · refine iff_of_false (by simp) ?_
      rintro ⟨-, hne2, -, -⟩
      exact hne hne2
    · refine iff_of_false (by simp) ?_
      rintro ⟨hk2, -, -, -⟩
      exact hk hk2
  · intro w hw
    have h1 : w = probMsg n.label (probSum es n.id) := by
      simp only [decisionWarning] at hw
      split_ifs at hw
      exact (Option.some.inj hw).symm
    refine ⟨h1, ?_⟩
    have h2 : w ∈ ns.filterMap (decisionWarning es) :=
      List.mem_filterMap.mpr ⟨n, hn, hw⟩
    show w ∈ selfLoopWarnings ns es ++ ns.filterMap (decisionWarning es)
        ++ (if hasCycleGraph ns es then [cycleMsg] else [])
    exact List.mem_append_left _ (List.mem_append_right _ h2)

theorem validate_prob_warning_witness :
    (((decisionWarning wG1e ⟨"d1", "D", "decision"⟩).isSome = true ↔
      (("decision" : String) = "decision"
        ∧ wG1e.filter (fun e => decide (e.source = "d1")) ≠ []
        ∧ (∃ e ∈ wG1e, e.source = "d1" ∧ e.prob.isSome = true)
        ∧ ¬(0.99 ≤ probSum wG1e "d1" ∧ probSum wG1e "d1" ≤ 1.01)))
    ∧ (∀ w, decisionWarning wG1e ⟨"d1", "D", "decision"⟩ = some w →
        w = probMsg "D" (probSum wG1e "d1")
          ∧ w ∈ validate_graph ⟨some wG1n, some wG1e⟩)) :=
  validate_prob_warning wG1n wG1e (by decide) ⟨"d1", "D", "decision"⟩ (by decide)

/-! ## Machinery for `auto_compute_probabilities` (C2, C4, C9) -/

/-- Filtering by source commutes with mapping a source-preserving function. -/
theorem filter_src_map (es : List Edge) (f : Edge → Edge)
    (hsrc : ∀ e, (f e).source = e.source) (s : String) :
    (es.map f).filter (fun e => decide (e.source = s)) =
      (es.filter (fun e => decide (e.source = s))).map f := by
  induction es with
  | nil => rfl
  | cons e tl ih =>
    by_cases hc : e.source = s
    · simp [List.filter_cons, hsrc, hc, ih]
    · simp [List.filter_cons, hsrc, hc, ih]

/-- `autoStep` for a node with a different id does not change the edges
leaving `s`. -/
theorem autoStep_filter_ne (es : List Edge) (m : Node) (s : String)
    (h : m.id ≠ s) :
    (autoStep es m).filter (fun e => decide (e.source = s)) =
      es.filter (fun e => decide (e.source = s)) := by
  simp only [autoStep]
  split_ifs with h1 h2
  · rw [filter_src_map]
    · have hid : ∀ e ∈ es.filter (fun e2 => decide (e2.source = s)),
          (if e.source = m.id then
            { e with prob := some (round3 (1 / ((es.filter
              (fun e2 => decide (e2.source = m.id))).length : ℚ))) } else e) = id e := by
        intro e he
        have hes : e.source = s := by simpa using (List.mem_filter.mp he).2
        rw [if_neg (by rw [hes]; exact fun hh => h hh.symm)]
        rfl
      rw [List.map_congr_left hid, List.map_id]
    · intro e
      by_cases hc : e.source = m.id <;> simp [hc]
  · rfl
  · rfl

/-- Folding `autoStep` over nodes whose ids all differ from `s` does not
change the edges leaving `s`. -/
theorem foldl_autoStep_filter_ne (pre : List Node) (es : List Edge) (s : String)
    (h : ∀ m ∈ pre, m.id ≠ s) :
    (pre.foldl autoStep es).filter (fun e => decide (e.source = s)) =
      es.filter (fun e => decide (e.source = s)) := by
  induction pre generalizing es with
  | nil => rfl
  | cons m tl ih =>
    rw [List.foldl_cons, ih _ (fun x hx => h x (List.mem_cons_of_mem m hx)),
      autoStep_filter_ne es m s (h m (List.mem_cons_self m tl))]

/-- The id of every node other than `n` in a node list with unique ids
differs from `n.id`, split into the part before and after `n`. -/
theorem nodup_split_ids (pre post : List Node) (n : Node)
    (hnd : (((pre ++ n :: post)).map Node.id).Nodup) :
    (∀ m ∈ pre, m.id ≠ n.id) ∧ (∀ m ∈ post, m.id ≠ n.id) := by
  have hmap : ((pre ++ n :: post).map Node.id) =
      pre.map Node.id ++ n.id :: post.map Node.id := by
    simp
  rw [hmap, List.nodup_append] at hnd
  obtain ⟨-, hnd2, hdisj⟩ := hnd
  constructor
  · intro m hm heq
    have := hdisj (a := m.id) (List.mem_map_of_mem Node.id hm)
    rw [heq] at this
    exact this (List.mem_cons_self _ _)
  · intro m hm heq
    rw [List.nodup_cons] at hnd2
    exact hnd2.1 (heq ▸ List.mem_map_of_mem Node.id hm)

/-- When a decision node's outgoing edges all lack a (nonzero)
probability, the node loop gives each of them the equal share. -/
theorem auto_filter_assign (ns : List Node) (es : List Edge) (n : Node)
    (hnd : (ns.map Node.id).Nodup) (hn : n ∈ ns)
    (hk : n.kind = "decision")
    (hne : es.filter (fun e => decide (e.source = n.id)) ≠ [])
    (hall : ∀ x ∈ es.filter (fun e => decide (e.source = n.id)),
      x.prob = none ∨ x.prob = some 0) :
    (ns.foldl autoStep es).filter (fun e => decide (e.source = n.id)) =
      (es.filter (fun e => decide (e.source = n.id))).map
        (fun e => { e with prob := some (round3 (1 /
          ((es.filter (fun e2 => decide (e2.source = n.id))).length : ℚ))) }) := by
  obtain ⟨pre, post, rfl⟩ := List.append_of_mem hn
  obtain ⟨hpre, hpost⟩ := nodup_split_ids pre post n hnd
  rw [List.foldl_append, List.foldl_cons]
  have hfil1 : (pre.foldl autoStep es).filter (fun e => decide (e.source = n.id)) =
      es.filter (fun e => decide (e.source = n.id)) :=
    foldl_autoStep_filter_ne pre es n.id hpre
  set es1 := pre.foldl autoStep es with hes1
  have hstep : autoStep es1 n = es1.map (fun e =>
      if e.source = n.id then
        { e with prob := some (round3 (1 /
          ((es.filter (fun e2 => decide (e2.source = n.id))).length : ℚ))) }
      else e) := by
    simp only [autoStep]
    rw [if_pos hk, hfil1, if_pos ⟨hne, hall⟩]
  rw [foldl_autoStep_filter_ne post _ n.id hpost, hstep, filter_src_map]
  · rw [hfil1]
    apply List.map_congr_left
    intro e he
    have : e.source = n.id := by simpa using (List.mem_filter.mp he).2
    rw [if_pos this]
  · intro e
    by_cases hc : e.source = n.id <;> simp [hc]

/-- When the assignment condition fails for a node, the node loop leaves
its outgoing edges exactly as they were. -/
theorem auto_filter_keep (ns : List Node) (es : List Edge) (n : Node)
    (hnd : (ns.map Node.id).Nodup) (hn : n ∈ ns)
    (hcond : ¬(n.kind = "decision"
      ∧ es.filter (fun e => decide (e.source = n.id)) ≠ []
      ∧ ∀ x ∈ es.filter (fun e => decide (e.source = n.id)),
          x.prob = none ∨ x.prob = some 0)) :
    (ns.foldl autoStep es).filter (fun e => decide (e.source = n.id)) =
      es.filter (fun e => decide (e.source = n.id)) := by
  obtain ⟨pre, post, rfl⟩ := List.append_of_mem hn
  obtain ⟨hpre, hpost⟩ := nodup_split_ids pre post n hnd
  rw [List.foldl_append, List.foldl_cons]
  have hfil1 : (pre.foldl autoStep es).filter (fun e => decide (e.source = n.id)) =
      es.filter (fun e => decide (e.source = n.id)) :=
    foldl_autoStep_filter_ne pre es n.id hpre
  set es1 := pre.foldl autoStep es with hes1
  have hstep : autoStep es1 n = es1 := by
    simp only [autoStep]
    split_ifs with h1 h2
    · rw [hfil1] at h2
      exact absurd ⟨h1, h2.1, h2.2⟩ hcond
    · rfl
    · rfl
  rw [hstep, foldl_autoStep_filter_ne post _ n.id hpost, hfil1]

/-- Round half to even is within a half of its argument. -/
theorem rhe_abs (q : ℚ) : |((rhe q : ℤ) : ℚ) - q| ≤ 1/2 := by
  have h0 : ((⌊q⌋ : ℤ) : ℚ) ≤ q := Int.floor_le q
  have h1 : q < ((⌊q⌋ : ℤ) : ℚ) + 1 := Int.lt_floor_add_one q
  simp only [rhe]
  split_ifs with ha hb hc
  · rw [abs_le]
    constructor <;> linarith
  · rw [abs_le, not_lt] at *
    push_cast
    constructor <;> linarith
  · rw [abs_le, not_lt] at *
    constructor <;> linarith
  · rw [abs_le, not_lt] at *
    push_cast
    constructor <;> linarith

/-- The assigned equal shares sum to 1 within `0.001 ×` the edge count. -/
theorem round3_share_bound (c : ℕ) (hc : 0 < c) :
    |(c : ℚ) * round3 (1 / (c : ℚ)) - 1| ≤ (0.001 : ℚ) * c := by
  have hcq : (0 : ℚ) < c := by exact_mod_cast hc
  have h1 : |((rhe ((1 / (c : ℚ)) * 1000) : ℤ) : ℚ) - (1 / (c : ℚ)) * 1000| ≤ 1/2 :=
    rhe_abs _
  have key : (c : ℚ) * round3 (1 / (c : ℚ)) - 1 =
      ((c : ℚ)/1000) * (((rhe ((1 / (c : ℚ)) * 1000) : ℤ) : ℚ) - (1 / (c : ℚ)) * 1000) := by
    unfold round3
    field_simp
    ring
  rw [key, abs_mul, abs_of_pos (by positivity : (0:ℚ) < (c : ℚ)/1000)]
  have h2 : ((c : ℚ)/1000) * |((rhe ((1 / (c : ℚ)) * 1000) : ℤ) : ℚ) - (1 / (c : ℚ)) * 1000|
      ≤ ((c : ℚ)/1000) * (1/2) := by
    apply mul_le_mul_of_nonneg_left h1 (by positivity)
  refine le_trans h2 ?_
  have : (0.001 : ℚ) = 1/1000 := by norm_num
  rw [this]
  nlinarith

/-! ## C2: automatic equal distribution of probabilities -/

/-- C2: for a decision node with a non-empty set of outgoing edges all of
whose probabilities are absent or exactly zero,
`auto_compute_probabilities` assigns each outgoing edge the probability
`round(1.0 / count, 3)` (and changes nothing else about those edges). -/
theorem auto_compute_assigns (ns : List Node) (es : List Edge) (n : Node)
    (hnd : (ns.map Node.id).Nodup) (hn : n ∈ ns)
    (hk : n.kind = "decision")
    (hne : es.filter (fun e => decide (e.source = n.id)) ≠ [])
    (hall : ∀ x ∈ es.filter (fun e => decide (e.source = n.id)),
      x.prob = none ∨ x.prob = some 0) :
    ((auto_compute_probabilities ⟨some ns, some es⟩).edges.getD []).filter
        (fun e => decide (e.source = n.id)) =
      (es.filter (fun e => decide (e.source = n.id))).map
        (fun e => { e with prob := some (round3 (1 /
          ((es.filter (fun e2 => decide (e2.source = n.id))).length : ℚ))) }) := by
  show (ns.foldl autoStep es).filter (fun e => decide (e.source = n.id)) = _
  exact auto_filter_assign ns es n hnd hn hk hne hall

theorem auto_compute_assigns_witness :
    ((auto_compute_probabilities ⟨some wG2n, some wG2e⟩).edges.getD []).filter
        (fun e => decide (e.source = "d")) =
      (wG2e.filter (fun e => decide (e.source = "d"))).map
        (fun e => { e with prob := some (round3 (1 /
          ((wG2e.filter (fun e2 => decide (e2.source = "d"))).length : ℚ))) }) :=
  auto_compute_assigns wG2n wG2e ⟨"d", "D", "decision"⟩ (by decide) (by decide)
    (by decide) (by decide)
    (by decide)

/-! ## C4: no partial redistribution -/

/-- C4: for a decision node that already has an outgoing edge with a
nonzero probability, `auto_compute_probabilities` leaves every outgoing
edge of that node unchanged. -/
theorem auto_compute_noop (ns : List Node) (es : List Edge) (n : Node)
    (hnd : (ns.map Node.id).Nodup) (hn : n ∈ ns)
    (hk : n.kind = "decision")
    (hnz : ∃ e ∈ es.filter (fun e => decide (e.source = n.id)),
      ∃ q, e.prob = some q ∧ q ≠ 0) :
    ((auto_compute_probabilities ⟨some ns, some es⟩).edges.getD []).filter
        (fun e => decide (e.source = n.id)) =
      es.filter (fun e => decide (e.source = n.id)) := by
  show (ns.foldl autoStep es).filter (fun e => decide (e.source = n.id)) = _
  apply auto_filter_keep ns es n hnd hn
  rintro ⟨-, -, hall⟩
  obtain ⟨e, he, q, hq, hq0⟩ := hnz
  rcases hall e he with h | h
  · rw [hq] at h
    cases h
  · rw [hq] at h
    exact hq0 (Option.some.inj h)

theorem auto_compute_noop_witness :
    ((auto_compute_probabilities ⟨some wG2n, some wG4e⟩).edges.getD []).filter
        (fun e => decide (e.source = "d")) =
      wG4e.filter (fun e => decide (e.source = "d")) :=
  auto_compute_noop wG2n wG4e ⟨"d", "D", "decision"⟩ (by decide) (by decide) (by decide)
    ⟨⟨"e1", "d", "a", none, some 1⟩, by decide, 1, rfl, one_ne_zero⟩

/-! ## C9: probability conservation of the assigned shares -/

/-- C9: when `auto_compute_probabilities` assigns equal shares to the
outgoing edges of a decision node, the assigned probabilities sum to 1.0
within `0.001 ×` the number of those edges. -/
theorem auto_compute_prob_sum (ns : List Node) (es : List Edge) (n : Node)
    (hnd : (ns.map Node.id).Nodup) (hn : n ∈ ns)
    (hk : n.kind = "decision")
    (hne : es.filter (fun e => decide (e.source = n.id)) ≠ [])
    (hall : ∀ x ∈ es.filter (fun e => decide (e.source = n.id)),
      x.prob = none ∨ x.prob = some 0) :
    |((((auto_compute_probabilities ⟨some ns, some es⟩).edges.getD []).filter
        (fun e => decide (e.source = n.id))).map (fun e => e.prob.getD 0)).sum - 1| ≤
      (0.001 : ℚ) * ((es.filter (fun e => decide (e.source = n.id))).length : ℚ) := by
  have h := auto_filter_assign ns es n hnd hn hk hne hall
  have hshow : ((auto_compute_probabilities ⟨some ns, some es⟩).edges.getD []) =
      ns.foldl autoStep es := rfl
  rw [hshow, h, List.map_map]
  set out := es.filter (fun e => decide (e.source = n.id)) with hout
  set P := round3 (1 / ((es.filter (fun e2 => decide (e2.source = n.id))).length : ℚ))
    with hP
  have hconst : out.map ((fun e => e.prob.getD 0) ∘
      (fun e => { e with prob := some P })) = out.map (Function.const Edge P) := by
    apply List.map_congr_left
    intro e _
    rfl
  rw [hconst, List.map_const, List.sum_replicate, nsmul_eq_mul]
  have hc : 0 < out.length := List.length_pos.mpr hne
  exact round3_share_bound out.length hc

theorem auto_compute_prob_sum_witness :
    |((((auto_compute_probabilities ⟨some wG2n, some wG2e⟩).edges.getD []).filter
        (fun e => decide (e.source = "d"))).map (fun e => e.prob.getD 0)).sum - 1| ≤
      (0.001 : ℚ) * ((wG2e.filter (fun e => decide (e.source = "d"))).length : ℚ) :=
  auto_compute_prob_sum wG2n wG2e ⟨"d", "D", "decision"⟩ (by decide) (by decide)
    (by decide) (by decide) (by decide)

/-! ## Machinery for `has_cycle` (C3): the inner edge loop -/

/-- The in-degree table after visiting the out-edges of `current`: each
edge from `current` decrements its target. -/
theorem processEdges_deg (c : String) : ∀ (l : List Edge) (d : String → ℤ) (v : String),
    (processEdges c l d).1 v =
      d v - (l.countP (fun e => decide (e.source = c ∧ e.target = v)) : ℤ) := by
  intro l
  induction l with
  | nil =>
    intro d v
    simp [processEdges]
  | cons e rest ih =>
    intro d v
    by_cases hs : e.source = c
    · simp only [processEdges, if_pos hs]
      split <;>
      · rw [ih, List.countP_cons]
        by_cases hv : v = e.target
        · subst hv
          simp only [if_pos rfl, hs, decide_eq_true_eq, and_self, if_pos, true_and]
          push_cast
          simp
          ring
        · simp only [if_neg hv]
          have : ¬(e.source = c ∧ e.target = v) := fun hh => hv hh.2.symm
          simp [this]
    · simp only [processEdges, if_neg hs]
      rw [ih, List.countP_cons]
      have : ¬(e.source = c ∧ e.target = v) := fun hh => hs hh.1
      simp [this]

/-- A target is appended to the queue exactly when its in-degree was
positive before the edge loop and non-positive after it. -/
theorem processEdges_mem (c : String) : ∀ (l : List Edge) (d : String → ℤ) (v : String),
    v ∈ (processEdges c l d).2 ↔
      (0 < d v ∧ (processEdges c l d).1 v ≤ 0) := by
  intro l
  induction l with
  | nil =>
    intro d v
    simp only [processEdges, List.not_mem_nil, false_iff, not_and, not_le]
    intro h
    omega
  | cons e rest ih =>
    intro d v
    have hK : (0 : ℤ) ≤ (rest.countP (fun e2 => decide (e2.source = c ∧ e2.target = v)) : ℤ) := by
      positivity
    by_cases hs : e.source = c
    · simp only [processEdges, if_pos hs]
      by_cases hz : d e.target - 1 = 0
      · rw [if_pos hz]
        simp only [List.mem_cons, ih, processEdges_deg]
        by_cases hv : v = e.target
        · subst hv
          simp only [if_pos rfl, eq_self_iff_true, if_true, true_or, true_iff]
          omega
        · simp only [if_neg hv, or_iff_right hv]
      · rw [if_neg hz]
        rw [ih, processEdges_deg]
        by_cases hv : v = e.target
        · subst hv
          simp only [if_pos rfl]
          omega
        · simp only [if_neg hv]
    · simp only [processEdges, if_neg hs]
      exact ih d v

/-- The appended queue entries are distinct. -/
theorem processEdges_nodup (c : String) : ∀ (l : List Edge) (d : String → ℤ),
    ((processEdges c l d).2).Nodup := by
  intro l
  induction l with
  | nil =>
    intro d
    simp [processEdges]
  | cons e rest ih =>
    intro d
    by_cases hs : e.source = c
    · simp only [processEdges, if_pos hs]
      by_cases hz : d e.target - 1 = 0
      · rw [if_pos hz]
        refine List.nodup_cons.mpr ⟨?_, ih _⟩
        rw [processEdges_mem]
        rintro ⟨h1, -⟩
        have h2 : 0 < d e.target - 1 := by simpa using h1
        omega
      · rw [if_neg hz]
        exact ih _
    · simp only [processEdges, if_neg hs]
      exact ih d

/-- Every appended queue entry is the target of an out-edge of `current`. -/
theorem processEdges_subset (c : String) (l : List Edge) (d : String → ℤ)
    (v : String) (hv : v ∈ (processEdges c l d).2) :
    ∃ e ∈ l, e.source = c ∧ e.target = v := by
  rw [processEdges_mem] at hv
  obtain ⟨h1, h2⟩ := hv
  rw [processEdges_deg] at h2
  have hpos : 0 < l.countP (fun e => decide (e.source = c ∧ e.target = v)) := by
    rcases Nat.eq_zero_or_pos (l.countP (fun e => decide (e.source = c ∧ e.target = v)))
      with h | h
    · rw [h] at h2
      push_cast at h2
      omega
    · exact h
  obtain ⟨e, he, hp⟩ := List.countP_pos.mp hpos
  exact ⟨e, he, by simpa using hp⟩

/-! ## `remDeg` and `posIn` toolbox -/

/-- At the start nothing is processed: `remDeg` is the raw in-degree. -/
theorem remDeg_nil (es : List Edge) (v : String) :
    (remDeg es [] v : ℤ) = ((es.filter fun e => decide (e.target = v)).length : ℤ) := by
  unfold remDeg
  rw [List.countP_eq_length_filter]
  have heq : (es.filter fun e => decide (e.target = v ∧ e.source ∉ ([] : List String))) =
      es.filter fun e => decide (e.target = v) :=
    List.filter_congr fun e _ => by simp
  rw [heq]

/-- Processing `c` removes exactly the edges out of `c` from the remaining
in-degree of every vertex. -/
theorem remDeg_append (es : List Edge) (P : List String) (c : String)
    (hc : c ∉ P) (v : String) :
    remDeg es (P ++ [c]) v
      + es.countP (fun e => decide (e.source = c ∧ e.target = v))
      = remDeg es P v := by
  unfold remDeg
  induction es with
  | nil => rfl
  | cons e rest ih =>
    simp only [List.countP_cons, decide_eq_true_eq]
    by_cases ht : e.target = v
    · by_cases hsP : e.source ∈ P
      · have h1 : ¬(e.source = c ∧ e.target = v) := fun hh => hc (hh.1 ▸ hsP)
        have h2 : ¬(e.target = v ∧ e.source ∉ P ++ [c]) := fun hh =>
          hh.2 (List.mem_append_left _ hsP)
        have h3 : ¬(e.target = v ∧ e.source ∉ P) := fun hh => hh.2 hsP
        rw [if_neg h1, if_neg h2, if_neg h3]
        omega
      · by_cases hsc : e.source = c
        · have h1 : (e.source = c ∧ e.target = v) := ⟨hsc, ht⟩
          have h2 : ¬(e.target = v ∧ e.source ∉ P ++ [c]) := fun hh =>
            hh.2 (List.mem_append_right _ (hsc ▸ List.mem_singleton_self c))
          have h3 : (e.target = v ∧ e.source ∉ P) := ⟨ht, hsP⟩
          rw [if_pos h1, if_neg h2, if_pos h3]
          omega
        · have h1 : ¬(e.source = c ∧ e.target = v) := fun hh => hsc hh.1
          have h2 : (e.target = v ∧ e.source ∉ P ++ [c]) := by
            refine ⟨ht, fun hh => ?_⟩
            rcases List.mem_append.mp hh with hh | hh
            · exact hsP hh
            · exact hsc (List.mem_singleton.mp hh)
          have h3 : (e.target = v ∧ e.source ∉ P) := ⟨ht, hsP⟩
          rw [if_neg h1, if_pos h2, if_pos h3]
          omega
    · have h1 : ¬(e.source = c ∧ e.target = v) := fun hh => ht hh.2
      have h2 : ¬(e.target = v ∧ e.source ∉ P ++ [c]) := fun hh => ht hh.1
      have h3 : ¬(e.target = v ∧ e.source ∉ P) := fun hh => ht hh.1
      rw [if_neg h1, if_neg h2, if_neg h3]
      omega

/-- `remDeg` only shrinks as more sources are processed. -/
theorem remDeg_append_le (es : List Edge) (P : List String) (c : String)
    (hc : c ∉ P) (v : String) :
    remDeg es (P ++ [c]) v ≤ remDeg es P v := by
  have := remDeg_append es P c hc v
  omega

/-- A vertex with remaining in-degree 0 has all its in-edge sources
processed. -/
theorem remDeg_eq_zero_iff (es : List Edge) (P : List String) (v : String) :
    remDeg es P v = 0 ↔ ∀ e ∈ es, e.target = v → e.source ∈ P := by
  unfold remDeg
  rw [List.countP_eq_zero]
  constructor
  · intro h e he ht
    by_contra hsP
    exact h e he (by simp [ht, hsP])
  · intro h e he
    simp only [decide_eq_true_eq, not_and, not_not]
    intro ht
    exact h e he ht

theorem posIn_lt_length (l : List String) (a : String) :
    a ∈ l ↔ posIn l a < l.length := by
  induction l with
  | nil => simp [posIn]
  | cons x xs ih =>
    by_cases hx : x = a
    · simp [posIn, hx]
    · simp only [posIn, if_neg hx, List.length_cons, List.mem_cons]
      constructor
      · rintro (h | h)
        · exact absurd h.symm hx
        · exact Nat.succ_lt_succ (ih.mp h)
      · intro h
        exact Or.inr (ih.mpr (Nat.lt_of_succ_lt_succ h))

theorem posIn_append_left (P l : List String) (a : String) (ha : a ∈ P) :
    posIn (P ++ l) a = posIn P a := by
  induction P with
  | nil => cases ha
  | cons x xs ih =>
    by_cases hx : x = a
    · simp [posIn, hx]
    · have : a ∈ xs := by
        rcases List.mem_cons.mp ha with h | h
        · exact absurd h.symm hx
        · exact h
      simp [posIn, hx, ih this]

theorem posIn_append_not_mem (P l : List String) (a : String) (ha : a ∉ P) :
    posIn (P ++ l) a = P.length + posIn l a := by
  induction P with
  | nil => simp [posIn]
  | cons x xs ih =>
    have hx : x ≠ a := fun h => ha (h ▸ List.mem_cons_self x xs)
    have : a ∉ xs := fun h => ha (List.mem_cons_of_mem x h)
    simp [posIn, hx, ih this]
    omega

/-! ## The Kahn loop invariant (C3) -/

/-- One iteration of the `while` loop preserves the invariant: the head of
the queue is moved to the processed list and its out-edges are visited. -/
theorem kahn_step (ids : List String) (es : List Edge)
    (hval : ∀ e ∈ es, e.source ∈ ids ∧ e.target ∈ ids)
    (P rest : List String) (c : String) (d : String → ℤ)
    (hI : KahnInv ids es P (c :: rest) d) :
    KahnInv ids es (P ++ [c]) (rest ++ (processEdges c es d).2)
      (processEdges c es d).1 := by
  obtain ⟨hnd, hsub, hd, hmem, htopo⟩ := hI
  have hassoc : P ++ c :: rest = (P ++ [c]) ++ rest := by simp
  have hcP : c ∉ P := by
    rw [List.nodup_append] at hnd
    intro hmemP
    exact hnd.2.2 hmemP (List.mem_cons_self c rest)
  have hcmem : c ∈ ids := hsub c (List.mem_append_right P (List.mem_cons_self c rest))
  have hd' : ∀ v, (processEdges c es d).1 v = (remDeg es (P ++ [c]) v : ℤ) := by
    intro v
    rw [processEdges_deg, hd v]
    have := remDeg_append es P c hcP v
    omega
  have hA : ∀ v, v ∈ (processEdges c es d).2 ↔
      (remDeg es P v ≠ 0 ∧ remDeg es (P ++ [c]) v = 0) := by
    intro v
    rw [processEdges_mem, hd v, hd' v]
    omega
  have hAsub : ∀ v ∈ (processEdges c es d).2, v ∈ ids := by
    intro v hv
    obtain ⟨e, he, -, ht⟩ := processEdges_subset c es d v hv
    exact ht ▸ (hval e he).2
  have hAnotin : ∀ v ∈ (processEdges c es d).2, v ∉ P ++ c :: rest := by
    intro v hv hvin
    have h1 := (hA v).mp hv
    exact h1.1 ((hmem v (hAsub v hv)).mp hvin)
  refine ⟨?_, ?_, hd', ?_, ?_⟩
  · have h1 : ((P ++ [c]) ++ (rest ++ (processEdges c es d).2)) =
        ((P ++ [c]) ++ rest) ++ (processEdges c es d).2 := by simp
    rw [h1, List.nodup_append]
    refine ⟨hassoc ▸ hnd, processEdges_nodup c es d, ?_⟩
    intro x hx hxA
    exact hAnotin x hxA (hassoc ▸ hx)
  · intro x hx
    rcases List.mem_append.mp hx with hx | hx
    · rcases List.mem_append.mp hx with hx | hx
      · exact hsub x (List.mem_append_left _ hx)
      · exact hsub x (List.mem_append_right _
          (List.mem_singleton.mp hx ▸ List.mem_cons_self c rest))
    · rcases List.mem_append.mp hx with hx | hx
      · exact hsub x (List.mem_append_right _ (List.mem_cons_of_mem c hx))
      · exact hAsub x hx
  · intro v hv
    constructor
    · intro hvin
      rcases List.mem_append.mp hvin with hx | hx
      · rcases List.mem_append.mp hx with hx | hx
        · have h0 : remDeg es P v = 0 :=
            (hmem v hv).mp (List.mem_append_left _ hx)
          have := remDeg_append_le es P c hcP v
          omega
        · have h0 : remDeg es P v = 0 := (hmem v hv).mp (List.mem_append_right _
            (List.mem_singleton.mp hx ▸ List.mem_cons_self c rest))
          have := remDeg_append_le es P c hcP v
          omega
      · rcases List.mem_append.mp hx with hx | hx
        · have h0 : remDeg es P v = 0 :=
            (hmem v hv).mp (List.mem_append_right _ (List.mem_cons_of_mem c hx))
          have := remDeg_append_le es P c hcP v
          omega
        · exact ((hA v).mp hx).2
    · intro h0
      by_cases hz : remDeg es P v = 0
      · have hvin := (hmem v hv).mpr hz
        rcases List.mem_append.mp hvin with hx | hx
        · exact List.mem_append_left _ (List.mem_append_left _ hx)
        · rcases List.mem_cons.mp hx with hx | hx
          · exact List.mem_append_left _
              (List.mem_append_right _ (hx ▸ List.mem_singleton_self _))
          · exact List.mem_append_right _ (List.mem_append_left _ hx)
      · exact List.mem_append_right _
          (List.mem_append_right _ ((hA v).mpr ⟨hz, h0⟩))
  · intro e he htgt
    rcases List.mem_append.mp htgt with hx | hx
    · have h1 := htopo e he hx
      have h2 : e.target ∈ P := hx
      have h3 : e.source ∈ P := by
        rw [posIn_lt_length]
        calc posIn P e.source < posIn P e.target := h1
          _ < P.length := (posIn_lt_length P e.target).mp h2
      rw [posIn_append_left P [c] e.source h3, posIn_append_left P [c] e.target h2]
      exact h1
    · have htc : e.target = c := List.mem_singleton.mp hx
      have h0 : remDeg es P c = 0 :=
        (hmem c hcmem).mp (List.mem_append_right P (List.mem_cons_self c rest))
      have hsrc : e.source ∈ P :=
        (remDeg_eq_zero_iff es P c).mp h0 e he htc
      rw [htc, posIn_append_left P [c] e.source hsrc,
        posIn_append_not_mem P [c] c hcP]
      have h4 : posIn [c] c = 0 := by simp [posIn]
      rw [h4]
      have h5 : posIn P e.source < P.length := (posIn_lt_length P e.source).mp hsrc
      omega

/-- When the queue is empty the invariant yields the final description of
the processed list. -/
theorem kahnInv_drained (ids : List String) (es : List Edge) (P : List String)
    (d : String → ℤ) (hI : KahnInv ids es P [] d) : KahnFinal ids es P := by
  obtain ⟨hnd, hsub, -, hmem, htopo⟩ := hI
  refine ⟨by simpa using hnd, fun x hx => hsub x (by simpa using hx),
    fun v hv => ?_, htopo⟩
  have := hmem v hv
  simpa using this

/-- The queue always drains within the fuel supplied, and the visited
count is the length of a processed list satisfying `KahnFinal`. -/
theorem kahnLoop_final (ids : List String) (es : List Edge)
    (hval : ∀ e ∈ es, e.source ∈ ids ∧ e.target ∈ ids) :
    ∀ (fuel : ℕ) (Q : List String) (d : String → ℤ) (P : List String),
    KahnInv ids es P Q d → ids.length - P.length ≤ fuel →
    ∃ F : List String, kahnLoop es fuel Q d P.length = F.length
      ∧ KahnFinal ids es F := by
  intro fuel
  induction fuel with
  | zero =>
    intro Q d P hI hf
    have hlen : (P ++ Q).length ≤ ids.length := by
      obtain ⟨hnd, hsub, -, -, -⟩ := hI
      calc (P ++ Q).length = (P ++ Q).toFinset.card :=
            (List.toFinset_card_of_nodup hnd).symm
        _ ≤ ids.toFinset.card := Finset.card_le_card (by
            intro x hx
            rw [List.mem_toFinset] at hx ⊢
            exact hsub x hx)
        _ ≤ ids.length := List.toFinset_card_le ids
    have hQ : Q = [] := by
      rw [List.length_append] at hlen
      have : Q.length = 0 := by omega
      exact List.length_eq_zero.mp this
    subst hQ
    exact ⟨P, rfl, kahnInv_drained ids es P d hI⟩
  | succ fuel ih =>
    intro Q d P hI hf
    match Q with
    | [] => exact ⟨P, rfl, kahnInv_drained ids es P d hI⟩
    | c :: rest =>
      have hstep := kahn_step ids es hval P rest c d hI
      have hf' : ids.length - (P ++ [c]).length ≤ fuel := by
        rw [List.length_append]
        simp only [List.length_singleton]
        omega
      obtain ⟨F, hFlen, hFfin⟩ := ih (rest ++ (processEdges c es d).2)
        (processEdges c es d).1 (P ++ [c]) hstep hf'
      refine ⟨F, ?_, hFfin⟩
      have hcount : P.length + 1 = (P ++ [c]).length := by simp
      calc kahnLoop es (fuel + 1) (c :: rest) d P.length
          = kahnLoop es fuel (rest ++ (processEdges c es d).2)
              (processEdges c es d).1 (P.length + 1) := rfl
        _ = kahnLoop es fuel (rest ++ (processEdges c es d).2)
              (processEdges c es d).1 (P ++ [c]).length := by rw [hcount]
        _ = F.length := hFlen

/-- The initial state of the `while` loop satisfies the invariant. -/
theorem kahn_init (ids : List String) (es : List Edge) (hnd : ids.Nodup) :
    KahnInv ids es []
      (ids.filter fun i =>
        decide ((((es.filter fun e => decide (e.target = i)).length : ℤ)) = 0))
      (fun v => ((es.filter fun e => decide (e.target = v)).length : ℤ)) := by
  refine ⟨?_, ?_, ?_, ?_, ?_⟩
  · simpa using hnd.filter _
  · intro x hx
    rw [List.nil_append] at hx
    exact (List.mem_filter.mp hx).1
  · intro v
    rw [remDeg_nil]
  · intro v hv
    rw [List.nil_append, List.mem_filter]
    have h2 := remDeg_nil es v
    constructor
    · rintro ⟨-, h⟩
      simp only [decide_eq_true_eq] at h
      omega
    · intro h
      refine ⟨hv, ?_⟩
      simp only [decide_eq_true_eq]
      omega
  · intro e he htgt
    cases htgt

/-- A function increasing along every edge forbids loops in the
transitive closure. -/
theorem no_loop_of_increasing (r : String → String → Prop) (f : String → ℕ)
    (hf : ∀ a b, r a b → f a < f b) (v : String) :
    ¬ Relation.TransGen r v v := by
  have hmono : ∀ a b, Relation.TransGen r a b → f a < f b := by
    intro a b h
    induction h with
    | single h => exact hf _ _ h
    | tail _ h ih => exact lt_trans ih (hf _ _ h)
  intro h
  exact lt_irrefl _ (hmono v v h)

/-- In the absence of directed cycles, the edge relation of a (finitely
supported) edge set is well-founded. -/
theorem acc_of_no_cycle (ids : List String) (es : List Edge)
    (hval : ∀ e ∈ es, e.source ∈ ids ∧ e.target ∈ ids)
    (hno : ∀ v, ¬ Relation.TransGen (HasEdge es) v v) :
    ∀ v, Acc (fun a b => HasEdge es a b) v := by
  classical
  have hsrc : ∀ {a b}, HasEdge es a b → a ∈ ids := by
    rintro a b ⟨e, he, hsa, -⟩
    exact hsa ▸ (hval e he).1
  have main : ∀ (k : ℕ) (v : String),
      (ids.toFinset.filter fun u => Relation.TransGen (HasEdge es) u v).card ≤ k →
      Acc (fun a b => HasEdge es a b) v := by
    intro k
    induction k with
    | zero =>
      intro v hv
      constructor
      intro u hu
      exfalso
      have humem : u ∈ ids.toFinset.filter fun w =>
          Relation.TransGen (HasEdge es) w v := by
        rw [Finset.mem_filter]
        exact ⟨List.mem_toFinset.mpr (hsrc hu), Relation.TransGen.single hu⟩
      have := Finset.card_pos.mpr ⟨u, humem⟩
      omega
    | succ k ih =>
      intro v hv
      constructor
      intro u hu
      apply ih u
      have hsubs : (ids.toFinset.filter fun w => Relation.TransGen (HasEdge es) w u) ⊆
          ids.toFinset.filter fun w => Relation.TransGen (HasEdge es) w v := by
        intro w hw
        rw [Finset.mem_filter] at hw ⊢
        exact ⟨hw.1, hw.2.tail hu⟩
      have humem : u ∈ ids.toFinset.filter fun w =>
          Relation.TransGen (HasEdge es) w v := by
        rw [Finset.mem_filter]
        exact ⟨List.mem_toFinset.mpr (hsrc hu), Relation.TransGen.single hu⟩
      have hunotmem : u ∉ ids.toFinset.filter fun w =>
          Relation.TransGen (HasEdge es) w u := by
        rw [Finset.mem_filter]
        rintro ⟨-, hcyc⟩
        exact hno u hcyc
      have hss : (ids.toFinset.filter fun w => Relation.TransGen (HasEdge es) w u) ⊂
          ids.toFinset.filter fun w => Relation.TransGen (HasEdge es) w v :=
        (Finset.ssubset_iff_of_subset hsubs).mpr ⟨u, humem, hunotmem⟩
      have := Finset.card_lt_card hss
      omega
  intro v
  exact main _ v le_rfl

/-- The core correctness of `has_cycle` on a graph with both keys: the
visited count falls short of the node count exactly when a directed cycle
exists. -/
theorem hasCycleGraph_iff (ns : List Node) (es : List Edge)
    (hnd : (ns.map Node.id).Nodup)
    (hval : ∀ e ∈ es, e.source ∈ ns.map Node.id ∧ e.target ∈ ns.map Node.id) :
    hasCycleGraph ns es = true ↔ ∃ v, Relation.TransGen (HasEdge es) v v := by
  set ids := ns.map Node.id with hids
  obtain ⟨F, hFlen, hFnd, hFsub, hFmem, hFtopo⟩ :=
    kahnLoop_final ids es hval (ids.length + es.length)
      (ids.filter fun i =>
        decide ((((es.filter fun e => decide (e.target = i)).length : ℤ)) = 0))
      (fun v => ((es.filter fun e => decide (e.target = v)).length : ℤ))
      [] (kahn_init ids es hnd) (by simp)
  have hrw : hasCycleGraph ns es = decide (F.length ≠ ids.length) := by
    have h0 : hasCycleGraph ns es = decide
        (kahnLoop es (ids.length + es.length)
          (ids.filter fun i =>
            decide ((((es.filter fun e => decide (e.target = i)).length : ℤ)) = 0))
          (fun v => ((es.filter fun e => decide (e.target = v)).length : ℤ))
          ([] : List String).length ≠ ids.length) := rfl
    rw [h0, hFlen]
  rw [hrw]
  by_cases heq : F.length = ids.length
  · -- all nodes visited: no cycle
    have hFS : F.toFinset = ids.toFinset := by
      apply Finset.eq_of_subset_of_card_le
      · intro x hx
        rw [List.mem_toFinset] at hx ⊢
        exact hFsub x hx
      · rw [List.toFinset_card_of_nodup hFnd, List.toFinset_card_of_nodup hnd, heq]
    have hall : ∀ v ∈ ids, v ∈ F := by
      intro v hv
      have h1 : v ∈ F.toFinset := by
        rw [hFS]
        exact List.mem_toFinset.mpr hv
      exact List.mem_toFinset.mp h1
    have hstep : ∀ a b, HasEdge es a b → posIn F a < posIn F b := by
      rintro a b ⟨e, he, hsa, htb⟩
      subst hsa
      subst htb
      exact hFtopo e he (hall e.target (hval e he).2)
    have h1 : decide (F.length ≠ ids.length) = false := by
      simp [heq]
    rw [h1]
    refine iff_of_false (by simp) ?_
    rintro ⟨v, hv⟩
    exact no_loop_of_increasing (HasEdge es) (posIn F) hstep v hv
  · have h1 : decide (F.length ≠ ids.length) = true := by
      simp [heq]
    rw [h1]
    refine iff_of_true rfl ?_
    by_contra hno
    push_neg at hno
    have hacc := acc_of_no_cycle ids es hval hno
    have hin : ∀ v, v ∈ ids → v ∈ F := by
      intro v
      induction hacc v with
      | intro v h ih =>
        intro hv
        rw [hFmem v hv, remDeg_eq_zero_iff]
        intro e he ht
        exact ih e.source ⟨e, he, rfl, ht⟩ (hval e he).1
    apply heq
    have hFS : F.toFinset = ids.toFinset := by
      apply Finset.Subset.antisymm
      · intro x hx
        rw [List.mem_toFinset] at hx ⊢
        exact hFsub x hx
      · intro x hx
        rw [List.mem_toFinset] at hx ⊢
        exact hin x hx
    rw [← List.toFinset_card_of_nodup hFnd, ← List.toFinset_card_of_nodup hnd, hFS]

/-! ## Chain graphs (C3, the two particular cases) -/

/-- Adjacent pairs of a list are successive entries. -/
theorem zip_tail_mem (l : List String) (a b : String)
    (h : (a, b) ∈ l.zip l.tail) :
    ∃ k, l.get? k = some a ∧ l.get? (k + 1) = some b := by
  induction l with
  | nil => cases h
  | cons x xs ih =>
    match xs, h with
    | y :: ys, h =>
      rcases List.mem_cons.mp h with h | h
      · obtain ⟨h1, h2⟩ := Prod.mk.injEq .. ▸ h
        exact ⟨0, by simp [h1.symm], by simp [h2.symm]⟩
      · obtain ⟨k, hk1, hk2⟩ := ih h
        exact ⟨k + 1, hk1, hk2⟩

/-- Successive entries of a list form an adjacent pair of its zip with its
tail. -/
theorem get_zip_tail_mem (l : List String) (a b : String) :
    ∀ (k : ℕ), l.get? k = some a → l.get? (k + 1) = some b →
    (a, b) ∈ l.zip l.tail := by
  induction l with
  | nil =>
    intro k ha _
    cases ha
  | cons x xs ih =>
    intro k ha hb
    match k, ha, hb with
    | 0, ha, hb =>
      have hxa : x = a := Option.some.inj ha
      match xs, hb with
      | y :: ys, hb =>
        have hyb : y = b := Option.some.inj hb
        subst hxa
        subst hyb
        exact List.mem_cons_self _ _
    | k + 1, ha, hb =>
      have hmem := ih k ha hb
      match xs, hmem with
      | y :: ys, hmem =>
        exact List.mem_cons_of_mem _ hmem

/-- On a duplicate-free list, `posIn` inverts `get?`. -/
theorem posIn_of_get (l : List String) (hnd : l.Nodup) :
    ∀ (k : ℕ) (a : String), l.get? k = some a → posIn l a = k := by
  induction l with
  | nil =>
    intro k a h
    cases h
  | cons x xs ih =>
    intro k a h
    match k, h with
    | 0, h =>
      have : x = a := Option.some.inj h
      simp [posIn, this]
    | k + 1, h =>
      have hmem : a ∈ xs := List.get?_mem h
      have hx : x ≠ a := by
        rintro rfl
        exact (List.nodup_cons.mp hnd).1 hmem
      simp only [posIn, if_neg hx]
      rw [ih (List.nodup_cons.mp hnd).2 k a h]

theorem chainNodes_ids (ids : List String) :
    (chainNodes ids).map Node.id = ids := by
  rw [chainNodes, List.map_map]
  exact List.map_id ids

theorem chainEdges_val (ids : List String) :
    ∀ e ∈ chainEdges ids, e.source ∈ ids ∧ e.target ∈ ids := by
  intro e he
  simp only [chainEdges, List.mem_map] at he
  obtain ⟨⟨a, b⟩, hp, rfl⟩ := he
  obtain ⟨h1, h2⟩ := List.of_mem_zip hp
  exact ⟨h1, List.mem_of_mem_tail h2⟩

/-- Edges of a chain step from one entry to the next. -/
theorem chain_hasEdge (ids : List String) (a b : String)
    (h : HasEdge (chainEdges ids) a b) : (a, b) ∈ ids.zip ids.tail := by
  obtain ⟨e, he, hs, ht⟩ := h
  simp only [chainEdges, List.mem_map] at he
  obtain ⟨⟨x, y⟩, hp, rfl⟩ := he
  simp only at hs ht
  rw [← hs, ← ht]
  exact hp

/-- C3 particular case: a pure forward chain has no cycle. -/
theorem chain_no_cycle (ids : List String) (hnd : ids.Nodup) :
    has_cycle ⟨some (chainNodes ids), some (chainEdges ids)⟩ = false := by
  have hnd' : ((chainNodes ids).map Node.id).Nodup := by
    rw [chainNodes_ids]
    exact hnd
  have hval : ∀ e ∈ chainEdges ids,
      e.source ∈ (chainNodes ids).map Node.id ∧
        e.target ∈ (chainNodes ids).map Node.id := by
    rw [chainNodes_ids]
    exact chainEdges_val ids
  have hiff := hasCycleGraph_iff (chainNodes ids) (chainEdges ids) hnd' hval
  show hasCycleGraph (chainNodes ids) (chainEdges ids) = false
  rw [Bool.eq_false_iff]
  intro htrue
  obtain ⟨v, hv⟩ := hiff.mp htrue
  have hstep : ∀ a b, HasEdge (chainEdges ids) a b → posIn ids a < posIn ids b := by
    intro a b h
    obtain ⟨k, ha, hb⟩ := zip_tail_mem ids a b (chain_hasEdge ids a b h)
    rw [posIn_of_get ids hnd k a ha, posIn_of_get ids hnd (k + 1) b hb]
    omega
  exact no_loop_of_increasing (HasEdge (chainEdges ids)) (posIn ids) hstep v hv

/-- Walking forward along the chain gives reflexive-transitive
reachability in any edge set containing the chain edges. -/
theorem chain_path (ids : List String) (es2 : List Edge)
    (hsub : ∀ e ∈ chainEdges ids, e ∈ es2) :
    ∀ (j i : ℕ) (a b : String), i ≤ j → ids.get? i = some b →
      ids.get? j = some a → Relation.ReflTransGen (HasEdge es2) b a := by
  intro j
  induction j with
  | zero =>
    intro i a b hij hb ha
    have hi0 : i = 0 := Nat.le_zero.mp hij
    subst hi0
    have : b = a := Option.some.inj (hb.symm.trans ha)
    subst this
    exact Relation.ReflTransGen.refl
  | succ j ih =>
    intro i a b hij hb ha
    rcases Nat.lt_or_ge i (j + 1) with hlt | hge
    · have hij' : i ≤ j := Nat.lt_succ_iff.mp hlt
      have hjlt : j < ids.length := by
        obtain ⟨h1, -⟩ := List.get?_eq_some.mp ha
        omega
      obtain ⟨c, hc⟩ : ∃ c, ids.get? j = some c :=
        ⟨ids.get ⟨j, hjlt⟩, List.get?_eq_get hjlt⟩
      have hpath := ih i c b hij' hb hc
      refine hpath.tail ?_
      have hzip : (c, a) ∈ ids.zip ids.tail := get_zip_tail_mem ids c a j hc ha
      have hedge : (⟨"e_" ++ c, c, a, none, none⟩ : Edge) ∈ chainEdges ids := by
        simp only [chainEdges, List.mem_map]
        exact ⟨(c, a), hzip, rfl⟩
      exact ⟨_, hsub _ hedge, rfl, rfl⟩
    · have : i = j + 1 := le_antisymm hij hge
      subst this
      have : b = a := Option.some.inj (hb.symm.trans ha)
      subst this
      exact Relation.ReflTransGen.refl

/-- C3 particular case: a chain with one added back-edge has a cycle. -/
theorem chain_back_cycle (ids : List String) (hnd : ids.Nodup)
    (bid a b : String) (i j : ℕ) (hij : i ≤ j)
    (ha : ids.get? j = some a) (hb : ids.get? i = some b) :
    has_cycle ⟨some (chainNodes ids),
      some (chainEdges ids ++ [⟨bid, a, b, none, none⟩])⟩ = true := by
  have hnd' : ((chainNodes ids).map Node.id).Nodup := by
    rw [chainNodes_ids]
    exact hnd
  have hval : ∀ e ∈ chainEdges ids ++ [⟨bid, a, b, none, none⟩],
      e.source ∈ (chainNodes ids).map Node.id ∧
        e.target ∈ (chainNodes ids).map Node.id := by
    rw [chainNodes_ids]
    intro e he
    rcases List.mem_append.mp he with he | he
    · exact chainEdges_val ids e he
    · rw [List.mem_singleton] at he
      subst he
      exact ⟨List.get?_mem ha, List.get?_mem hb⟩
  have hiff := hasCycleGraph_iff (chainNodes ids)
    (chainEdges ids ++ [⟨bid, a, b, none, none⟩]) hnd' hval
  show hasCycleGraph (chainNodes ids)
    (chainEdges ids ++ [⟨bid, a, b, none, none⟩]) = true
  rw [hiff]
  refine ⟨a, ?_⟩
  have hback : HasEdge (chainEdges ids ++ [⟨bid, a, b, none, none⟩]) a b :=
    ⟨⟨bid, a, b, none, none⟩,
      List.mem_append_right _ (List.mem_singleton_self _), rfl, rfl⟩
  have hpath : Relation.ReflTransGen
      (HasEdge (chainEdges ids ++ [⟨bid, a, b, none, none⟩])) b a :=
    chain_path ids _ (fun e he => List.mem_append_left _ he) j i a b hij hb ha
  exact Relation.TransGen.trans_left (Relation.TransGen.single hback) hpath

/-! ## C3: cycle detection via Kahn's algorithm -/

/-- C3: for every well-formed graph (unique node ids, edges referencing
existing nodes), `has_cycle` returns true exactly when the edge set
contains a directed cycle; in particular a pure forward chain yields
false, and adding one back-edge to a chain yields true. -/
theorem has_cycle_iff_cycle :
    (∀ (ns : List Node) (es : List Edge), (ns.map Node.id).Nodup →
      (∀ e ∈ es, e.source ∈ ns.map Node.id ∧ e.target ∈ ns.map Node.id) →
      (has_cycle ⟨some ns, some es⟩ = true ↔ ExistsCycle es))
    ∧ (∀ ids : List String, ids.Nodup →
        has_cycle ⟨some (chainNodes ids), some (chainEdges ids)⟩ = false)
    ∧ (∀ (ids : List String) (bid a b : String) (i j : ℕ), ids.Nodup → i ≤ j →
        ids.get? j = some a → ids.get? i = some b →
        has_cycle ⟨some (chainNodes ids),
          some (chainEdges ids ++ [⟨bid, a, b, none, none⟩])⟩ = true) :=
  ⟨fun ns es hnd hval => hasCycleGraph_iff ns es hnd hval,
    fun ids hnd => chain_no_cycle ids hnd,
    fun ids bid a b i j hnd hij ha hb =>
      chain_back_cycle ids hnd bid a b i j hij ha hb⟩

theorem has_cycle_iff_cycle_witness :
    (has_cycle ⟨some wG3n, some wG3e⟩ = true ↔ ExistsCycle wG3e)
    ∧ has_cycle ⟨some (chainNodes ["a", "b", "c"]),
        some (chainEdges ["a", "b", "c"])⟩ = false
    ∧ has_cycle ⟨some (chainNodes ["a", "b", "c"]),
        some (chainEdges ["a", "b", "c"] ++ [⟨"bk", "c", "a", none, none⟩])⟩ = true :=
  ⟨has_cycle_iff_cycle.1 wG3n wG3e (by decide) (by decide),
    has_cycle_iff_cycle.2.1 ["a", "b", "c"] (by decide),
    has_cycle_iff_cycle.2.2 ["a", "b", "c"] "bk" "c" "a" 0 2 (by decide)
      (by decide) rfl rfl⟩
